import Mathlib

/-!
# Batch publisher of `messages/service.go`

A shallow embedding of `SNSMessageService.Publish` and `publishMessage`.

* The Go loop `for i := 0; i < len(subjects); i += batchSize` is the recursive
  function `Publish.loop`, recursing on the index `i`.
* The collaborators that live outside the repository are parameters: the JSON
  encoder applied to `message.Message` and the `%s` rendering used by
  `log.Printf` (structure `Env`), and the SNS client (structure `SNS`, a
  transition function on an abstract client state).
* Everything the code does to the outside is recorded, in order, in the
  `trace` of the `World`.
* `int` is modelled by `Nat`: the index satisfies `i < len(subjects)` and a
  `[]string` of length `n` occupies `16 * n` bytes, so `i + batchSize` stays far
  below `2^63`.
-/

set_option autoImplicit false
set_option maxRecDepth 8192

namespace Messages

/-- The constant `batchSize` of `service.go`. -/
def batchSize : Nat := 50

/-- The envelope `message.Message` (declared in `rialto-derivatives`). -/
structure Message where
  Action : String
  Entities : List String
  deriving DecidableEq, Repr

/-- The argument `sns.PublishInput`; `TopicArn` is a `*string`, `none` is `nil`. -/
structure PublishInput where
  Message : String
  TopicArn : Option String
  deriving DecidableEq, Repr

deriving instance DecidableEq for Except

/-- What a run does to the outside, in the order it does it.
`ρ` is the type of the value `conn.Publish` returns (`*sns.PublishOutput`), `ε` the
type of Go `error` values. -/
inductive Event (ρ ε : Type) where
  /-- `publishMessage` was entered with this slice. -/
  | call (subjects : List String)
  /-- The call `json.Marshal(msg)` and what it returned. -/
  | marshal (msg : Message) (res : Except ε String)
  /-- The call `s.conn.Publish(input)` and what it returned; `msg` is the envelope
  whose encoding is `input.Message`. -/
  | publish (msg : Message) (input : PublishInput) (msgID : ρ) (err : Option ε)
  /-- The text `log.Printf` was asked to write. -/
  | log (line : String)
  deriving DecidableEq

/-- The SNS client: one delivery maps the client state and the input to the
returned value, the returned error (`none` is `nil`) and the next client state. -/
structure SNS (σ ρ ε : Type) where
  Publish : σ → PublishInput → ρ × Option ε × σ

/-- Library functions used by `publishMessage`. -/
structure Env (ρ ε : Type) where
  /-- The encoder `json.Marshal` at type `message.Message`, followed by `string(...)`. -/
  Marshal : Message → Except ε String
  /-- The `%s` rendering of the value returned by `conn.Publish`. -/
  format : ρ → String

/-- The struct `SNSMessageService`. -/
structure SNSMessageService (σ ρ ε : Type) where
  conn : SNS σ ρ ε
  topicArn : Option String

/-- The constructor `NewSNSMessageService`. -/
def NewSNSMessageService {σ ρ ε : Type} (conn : SNS σ ρ ε) (topicArn : Option String) :
    SNSMessageService σ ρ ε :=
  { conn := conn, topicArn := topicArn }

/-- State threaded through a run: the state of the SNS client and the events so far. -/
structure World (σ ρ ε : Type) where
  conn : σ
  trace : List (Event ρ ε)

/-- How a call of `Publish` ends. -/
inductive Outcome (ε : Type) where
  /-- Normal return of the `error` value, `none` being `nil`. -/
  | returned (err : Option ε)
  /-- Run-time panic: slice bounds out of range. -/
  | panicked
  deriving DecidableEq

/-- The slice expression `xs[i:e]`; `none` is the out-of-range panic. Go checks
`e` against the capacity, which is at least the length: the bound used here is
the stricter one, so this panics whenever Go does. -/
def slice {α : Type} (xs : List α) (i e : Nat) : Option (List α) :=
  if i ≤ e ∧ e ≤ xs.length then some ((xs.drop i).take (e - i)) else none

/-- The method `publishMessage`. -/
def publishMessage {σ ρ ε : Type} (L : Env ρ ε) (s : SNSMessageService σ ρ ε)
    (subjects : List String) (w : World σ ρ ε) : Option ε × World σ ρ ε :=
  let w0 : World σ ρ ε := { w with trace := w.trace ++ [Event.call subjects] }
  let msg : Message := { Action := "touch", Entities := subjects }
  let res := L.Marshal msg
  let w1 : World σ ρ ε := { w0 with trace := w0.trace ++ [Event.marshal msg res] }
  match res with
  | .error err => (some err, w1)
  | .ok str =>
    let input : PublishInput := { Message := str, TopicArn := s.topicArn }
    let (msgID, err, conn') := s.conn.Publish w1.conn input
    let w2 : World σ ρ ε :=
      { conn := conn', trace := w1.trace ++ [Event.publish msg input msgID err] }
    let w3 : World σ ρ ε :=
      { w2 with trace := w2.trace ++ [Event.log ("[MESSAGE ID] " ++ L.format msgID)] }
    (err, w3)

/-- The loop of `Publish`, entered with index `i`. -/
def Publish.loop {σ ρ ε : Type} (L : Env ρ ε) (s : SNSMessageService σ ρ ε)
    (subjects : List String) (i : Nat) (w : World σ ρ ε) : Outcome ε × World σ ρ ε :=
  if i < subjects.length then
    let end0 := i + batchSize
    let end1 := if end0 > subjects.length then subjects.length else end0
    match slice subjects i end1 with
    | none => (Outcome.panicked, w)
    | some chunk =>
      match publishMessage L s chunk w with
      | (some err, w') => (Outcome.returned (some err), w')
      | (none, w') => Publish.loop L s subjects (i + batchSize) w'
  else
    (Outcome.returned none, w)
termination_by subjects.length - i
decreasing_by
  simp only [batchSize]
  omega

/-- The method `Publish`. -/
def Publish {σ ρ ε : Type} (L : Env ρ ε) (s : SNSMessageService σ ρ ε)
    (subjects : List String) (w : World σ ρ ε) : Outcome ε × World σ ρ ε :=
  Publish.loop L s subjects 0 w

/-! ### Observations on a trace -/

/-- One delivery call with its results. -/
structure Delivery (ρ ε : Type) where
  msg : Message
  input : PublishInput
  msgID : ρ
  err : Option ε
  deriving DecidableEq

/-- The delivery calls of a trace, oldest first. -/
def deliveries {ρ ε : Type} (tr : List (Event ρ ε)) : List (Delivery ρ ε) :=
  tr.filterMap fun ev =>
    match ev with
    | Event.publish msg input msgID err => some ⟨msg, input, msgID, err⟩
    | _ => none

/-- The delivery calls that returned a `nil` error. -/
def delivered {ρ ε : Type} (tr : List (Event ρ ε)) : List (Delivery ρ ε) :=
  (deliveries tr).filter fun d => d.err.isNone

/-- The slices `publishMessage` was called with, oldest first. -/
def callsOf {ρ ε : Type} (tr : List (Event ρ ε)) : List (List String) :=
  tr.filterMap fun ev =>
    match ev with
    | Event.call c => some c
    | _ => none

/-- The envelopes handed to `json.Marshal`, oldest first. -/
def marshalled {ρ ε : Type} (tr : List (Event ρ ε)) : List Message :=
  tr.filterMap fun ev =>
    match ev with
    | Event.marshal msg _ => some msg
    | _ => none

/-- The texts handed to `log.Printf`, oldest first. -/
def logLines {ρ ε : Type} (tr : List (Event ρ ε)) : List String :=
  tr.filterMap fun ev =>
    match ev with
    | Event.log line => some line
    | _ => none

/-- The errors returned by the encoder or by the SNS client, oldest first. -/
def failures {ρ ε : Type} (tr : List (Event ρ ε)) : List ε :=
  tr.filterMap fun ev =>
    match ev with
    | Event.marshal _ (.error e) => some e
    | Event.publish _ _ _ (some e) => some e
    | _ => none

/-! ### The partition the specification describes -/

/-- Number of batches for `n` subjects: `n / batchSize` rounded up. -/
def numChunks (n : Nat) : Nat := (n + (batchSize - 1)) / batchSize

/-- The sub-list of `xs` at the indices `[batchSize * j, min (batchSize * j + batchSize) n)`. -/
def chunkAt {α : Type} (xs : List α) (j : Nat) : List α :=
  (xs.drop (batchSize * j)).take (min (batchSize * j + batchSize) xs.length - batchSize * j)

/-- The consecutive batches of `xs`. -/
def chunks {α : Type} (xs : List α) : List (List α) :=
  (List.range (numChunks xs.length)).map (chunkAt xs)

/-! ### The run as a function of the list of batches -/

/-- What `publishMessage` does on one slice from client state `st`: the returned
error, the next client state and the events, in order. -/
def stepChunk {σ ρ ε : Type} (L : Env ρ ε) (s : SNSMessageService σ ρ ε)
    (c : List String) (st : σ) : Option ε × σ × List (Event ρ ε) :=
  let msg : Message := { Action := "touch", Entities := c }
  match L.Marshal msg with
  | .error err => (some err, st, [Event.call c, Event.marshal msg (.error err)])
  | .ok str =>
    let input : PublishInput := { Message := str, TopicArn := s.topicArn }
    let r := s.conn.Publish st input
    (r.2.1, r.2.2,
      [Event.call c, Event.marshal msg (.ok str), Event.publish msg input r.1 r.2.1,
        Event.log ("[MESSAGE ID] " ++ L.format r.1)])

/-- Slices handled one after the other, stopping at the first error. -/
def runChunks {σ ρ ε : Type} (L : Env ρ ε) (s : SNSMessageService σ ρ ε) :
    List (List String) → σ → Option ε × σ × List (Event ρ ε)
  | [], st => (none, st, [])
  | c :: cs, st =>
    match stepChunk L s c st with
    | (some e, st', evs) => (some e, st', evs)
    | (none, st', evs) =>
      let r := runChunks L s cs st'
      (r.1, r.2.1, evs ++ r.2.2)

/-! ### One call of `Publish`, observed -/

/-- The events of one call of `Publish` that starts with the SNS client in state `st`. -/
def eventsOf {σ ρ ε : Type} (L : Env ρ ε) (s : SNSMessageService σ ρ ε)
    (subjects : List String) (st : σ) : List (Event ρ ε) :=
  (Publish L s subjects { conn := st, trace := [] }).2.trace

/-- How that call ends. -/
def resultOf {σ ρ ε : Type} (L : Env ρ ε) (s : SNSMessageService σ ρ ε)
    (subjects : List String) (st : σ) : Outcome ε :=
  (Publish L s subjects { conn := st, trace := [] }).1

/-! ### Concrete collaborators -/

/-- An encoder that never fails, and the identity rendering. -/
def demoEnv : Env String String :=
  { Marshal := fun m => .ok (m.Action ++ ":" ++ String.intercalate "," m.Entities)
    format := fun id => id }

/-- A client whose state counts the calls made so far and whose call number `k`
fails (`k = 0`: no call fails). -/
def demoConn (k : Nat) : SNS Nat String String :=
  { Publish := fun st _ =>
      if st + 1 = k then ("", some "delivery failed", st + 1) else ("id", none, st + 1) }

/-- A service built on `demoConn k`. -/
def demoService (k : Nat) : SNSMessageService Nat String String :=
  NewSNSMessageService (demoConn k) (some "arn:topic")

/-- The subjects `s1`, ..., `s120`. -/
def subjects120 : List String := (List.range' 1 120).map fun i => "s" ++ toString i

/-- The calls of `json.Marshal`, each with what it returned, oldest first. -/
def marshalResults {ρ ε : Type} (tr : List (Event ρ ε)) : List (Message × Except ε String) :=
  tr.filterMap fun ev =>
    match ev with
    | Event.marshal msg res => some (msg, res)
    | _ => none

/-! ### The loop, seen from inside -/

/-- The value of `end` when the slice expression is evaluated in the loop body
entered with index `i`. -/
def loopEnd (subjects : List String) (i : Nat) : Nat :=
  let end0 := i + batchSize
  if end0 > subjects.length then subjects.length else end0

/-- The loop of `Publish` with a bound `fuel` on the number of times the loop
condition is evaluated; `none` when the bound is used up before the loop is left. -/
def Publish.loopFuel {σ ρ ε : Type} (L : Env ρ ε) (s : SNSMessageService σ ρ ε)
    (subjects : List String) : Nat → Nat → World σ ρ ε → Option (Outcome ε × World σ ρ ε)
  | 0, _, _ => none
  | fuel + 1, i, w =>
    if i < subjects.length then
      let end0 := i + batchSize
      let end1 := if end0 > subjects.length then subjects.length else end0
      match slice subjects i end1 with
      | none => some (Outcome.panicked, w)
      | some chunk =>
        match publishMessage L s chunk w with
        | (some err, w') => some (Outcome.returned (some err), w')
        | (none, w') => Publish.loopFuel L s subjects fuel (i + batchSize) w'
    else
      some (Outcome.returned none, w)

/-- An encoder that fails on an envelope with fewer than `batchSize` entities. -/
def strictEnv : Env String String :=
  { Marshal := fun m =>
      if m.Entities.length < batchSize then .error "unsupported value"
      else .ok (m.Action ++ ":" ++ String.intercalate "," m.Entities)
    format := fun id => id }

/-! ### The partition -/

theorem numChunks_le_iff (n j : Nat) : numChunks n ≤ j ↔ n ≤ batchSize * j := by
  unfold numChunks batchSize
  constructor
  · intro h
    have := Nat.lt_succ_of_le h
    rw [Nat.div_lt_iff_lt_mul (by norm_num)] at this
    omega
  · intro h
    apply Nat.le_of_lt_succ
    rw [Nat.div_lt_iff_lt_mul (by norm_num)]
    omega

theorem chunkAt_eq_take {α : Type} (xs : List α) (j : Nat) :
    chunkAt xs j = (xs.drop (batchSize * j)).take batchSize := by
  unfold chunkAt
  rw [List.take_eq_take, List.length_drop]
  omega

theorem chunkAt_length {α : Type} (xs : List α) (j : Nat) :
    (chunkAt xs j).length = min (batchSize * j + batchSize) xs.length - batchSize * j := by
  unfold chunkAt
  rw [List.length_take, List.length_drop]
  omega

/-- Element `t` of batch `j` is element `batchSize * j + t` of the input. -/
theorem chunkAt_getElem? {α : Type} (xs : List α) (j t : Nat) (ht : t < batchSize) :
    (chunkAt xs j)[t]? = xs[batchSize * j + t]? := by
  rw [chunkAt_eq_take, List.getElem?_take_of_lt ht, List.getElem?_drop]

theorem chunkAt_map {α β : Type} (f : α → β) (xs : List α) (j : Nat) :
    chunkAt (xs.map f) j = (chunkAt xs j).map f := by
  simp [chunkAt_eq_take]

theorem chunks_length {α : Type} (xs : List α) : (chunks xs).length = numChunks xs.length := by
  simp [chunks]

theorem chunks_getElem? {α : Type} (xs : List α) (j : Nat) (hj : j < numChunks xs.length) :
    (chunks xs)[j]? = some (chunkAt xs j) := by
  simp [chunks, List.getElem?_range hj]

theorem flatten_chunks_from {α : Type} (xs : List α) (d : Nat) :
    ∀ j, numChunks xs.length - j = d →
      ((List.range' j d).map (chunkAt xs)).flatten = xs.drop (batchSize * j) := by
  induction d with
  | zero =>
    intro j h
    have hj : xs.length ≤ batchSize * j := (numChunks_le_iff _ _).1 (by omega)
    simp [List.drop_eq_nil_of_le hj]
  | succ d ih =>
    intro j h
    rw [List.range'_succ, List.map_cons, List.flatten_cons, ih (j + 1) (by omega),
      chunkAt_eq_take]
    have hstep : batchSize * (j + 1) = batchSize * j + batchSize := by ring
    rw [hstep, ← List.drop_drop, List.take_append_drop]

/-- The batches, in order, make up the input. -/
theorem flatten_chunks {α : Type} (xs : List α) : (chunks xs).flatten = xs := by
  have h := flatten_chunks_from xs (numChunks xs.length) 0 (by omega)
  simpa [chunks, List.range_eq_range'] using h

/-- Every batch has between one and `batchSize` elements. -/
theorem chunk_length_bounds {α : Type} (xs : List α) (c : List α) (hc : c ∈ chunks xs) :
    1 ≤ c.length ∧ c.length ≤ batchSize := by
  simp only [chunks, List.mem_map, List.mem_range] at hc
  obtain ⟨j, hj, rfl⟩ := hc
  have hlt : batchSize * j < xs.length := by
    by_contra hcon
    have := (numChunks_le_iff xs.length j).2 (by omega)
    omega
  rw [chunkAt_length]
  simp only [batchSize] at hlt ⊢
  omega

theorem chunks_map {α β : Type} (f : α → β) (xs : List α) :
    chunks (xs.map f) = (chunks xs).map (List.map f) := by
  simp [chunks, chunkAt_map]

/-- All batches but the last are full; the last holds the remainder, or is full
when the length is a multiple of `batchSize`. -/
theorem chunks_lengths {α : Type} (xs : List α) (hne : xs ≠ []) :
    (chunks xs).map List.length =
      List.replicate (numChunks xs.length - 1) 50 ++
        [if xs.length % 50 = 0 then 50 else xs.length % 50] := by
  have hpos : 0 < xs.length := List.length_pos.2 hne
  have hm : ¬ numChunks xs.length ≤ 0 := by
    rw [numChunks_le_iff]
    omega
  have hhi := (numChunks_le_iff xs.length (numChunks xs.length)).1 le_rfl
  have hlo : ¬ xs.length ≤ batchSize * (numChunks xs.length - 1) := by
    rw [← numChunks_le_iff]
    omega
  obtain ⟨m, hmeq⟩ : ∃ m, numChunks xs.length = m + 1 := ⟨numChunks xs.length - 1, by omega⟩
  rw [hmeq] at hhi hlo
  simp only [Nat.add_sub_cancel] at hlo
  simp only [chunks, hmeq, List.range_succ, List.map_append, List.map_cons, List.map_nil,
    List.map_map, Nat.add_sub_cancel]
  congr 1
  · rw [List.eq_replicate_iff]
    refine ⟨by simp, ?_⟩
    intro b hb
    simp only [List.mem_map, List.mem_range, Function.comp_apply] at hb
    obtain ⟨j, hj, rfl⟩ := hb
    have hjn : ¬ xs.length ≤ batchSize * (j + 1) := by
      rw [← numChunks_le_iff]
      omega
    rw [chunkAt_length]
    simp only [batchSize] at hjn ⊢
    omega
  · rw [chunkAt_length]
    simp only [batchSize] at hhi hlo ⊢
    congr 1
    split_ifs <;> omega

theorem numChunks_eq_ceil (n : Nat) : numChunks n = ⌈(n : ℚ) / 50⌉₊ := by
  symm
  by_cases hn : numChunks n = 0
  · have h0 : n = 0 := by
      have := (numChunks_le_iff n 0).1 (by omega)
      simpa using this
    subst h0
    simp [numChunks, batchSize]
  · rw [Nat.ceil_eq_iff hn]
    have h1 : ¬ numChunks n ≤ numChunks n - 1 := by omega
    rw [numChunks_le_iff] at h1
    have h2 := (numChunks_le_iff n (numChunks n)).1 le_rfl
    simp only [batchSize] at h1 h2
    constructor
    · rw [lt_div_iff₀ (by norm_num)]
      have : 50 * (numChunks n - 1) < n := by omega
      exact_mod_cast (by omega : (numChunks n - 1) * 50 < n)
    · rw [div_le_iff₀ (by norm_num)]
      exact_mod_cast (by omega : n ≤ numChunks n * 50)

/-! ### The loop handles the batches of the partition, in order -/

theorem publishMessage_eq {σ ρ ε : Type} (L : Env ρ ε) (s : SNSMessageService σ ρ ε)
    (c : List String) (w : World σ ρ ε) :
    publishMessage L s c w =
      ((stepChunk L s c w.conn).1,
        { conn := (stepChunk L s c w.conn).2.1,
          trace := w.trace ++ (stepChunk L s c w.conn).2.2 }) := by
  unfold publishMessage stepChunk
  cases h : L.Marshal { Action := "touch", Entities := c } <;> simp [h]

theorem slice_chunk {α : Type} (xs : List α) (j : Nat) (h : batchSize * j < xs.length) :
    slice xs (batchSize * j)
      (if batchSize * j + batchSize > xs.length then xs.length else batchSize * j + batchSize)
      = some (chunkAt xs j) := by
  unfold slice chunkAt
  split_ifs with h1 h2 h3
  · rw [Nat.min_eq_right (by omega)]
  · omega
  · rw [Nat.min_eq_left (by omega)]
  · omega

theorem loop_eq {σ ρ ε : Type} (L : Env ρ ε) (s : SNSMessageService σ ρ ε)
    (xs : List String) (d : Nat) :
    ∀ (j : Nat) (w : World σ ρ ε), numChunks xs.length - j = d →
      Publish.loop L s xs (batchSize * j) w =
        (Outcome.returned (runChunks L s ((List.range' j d).map (chunkAt xs)) w.conn).1,
          { conn := (runChunks L s ((List.range' j d).map (chunkAt xs)) w.conn).2.1,
            trace := w.trace ++
              (runChunks L s ((List.range' j d).map (chunkAt xs)) w.conn).2.2 }) := by
  induction d with
  | zero =>
    intro j w h
    have hj : xs.length ≤ batchSize * j := (numChunks_le_iff _ _).1 (by omega)
    rw [Publish.loop, if_neg (by omega)]
    simp [runChunks]
  | succ d ih =>
    intro j w h
    have hj : batchSize * j < xs.length := by
      by_contra hc
      have := (numChunks_le_iff xs.length j).2 (by omega)
      omega
    rw [Publish.loop, if_pos hj]
    simp only [slice_chunk xs j hj, List.range'_succ, List.map_cons, runChunks]
    rw [publishMessage_eq]
    have hstep : batchSize * j + batchSize = batchSize * (j + 1) := by ring
    cases hE : (stepChunk L s (chunkAt xs j) w.conn).1 with
    | some e =>
      rcases hS : stepChunk L s (chunkAt xs j) w.conn with ⟨e', st', evs⟩
      rw [hS] at hE
      simp only at hE
      subst hE
      simp
    | none =>
      rcases hS : stepChunk L s (chunkAt xs j) w.conn with ⟨e', st', evs⟩
      rw [hS] at hE
      simp only at hE
      subst hE
      simp only
      rw [hstep, ih (j + 1) _ (by omega)]
      simp [List.append_assoc]

/-- The run of `Publish` is the run over the batches of the partition. -/
theorem Publish_eq {σ ρ ε : Type} (L : Env ρ ε) (s : SNSMessageService σ ρ ε)
    (xs : List String) (w : World σ ρ ε) :
    Publish L s xs w =
      (Outcome.returned (runChunks L s (chunks xs) w.conn).1,
        { conn := (runChunks L s (chunks xs) w.conn).2.1,
          trace := w.trace ++ (runChunks L s (chunks xs) w.conn).2.2 }) := by
  have h := loop_eq L s xs (numChunks xs.length) 0 w (by omega)
  simp only [Nat.mul_zero] at h
  unfold Publish chunks
  rw [h, List.range_eq_range']

/-! ### Computing the observations -/

@[simp] theorem deliveries_nil {ρ ε : Type} : deliveries ([] : List (Event ρ ε)) = [] := rfl

@[simp] theorem deliveries_append {ρ ε : Type} (t u : List (Event ρ ε)) :
    deliveries (t ++ u) = deliveries t ++ deliveries u := by
  simp [deliveries, List.filterMap_append]

@[simp] theorem deliveries_cons_call {ρ ε : Type} (c : List String) (tr : List (Event ρ ε)) :
    deliveries (Event.call c :: tr) = deliveries tr := rfl

@[simp] theorem deliveries_cons_marshal {ρ ε : Type} (msg : Message) (res : Except ε String)
    (tr : List (Event ρ ε)) :
    deliveries (Event.marshal msg res :: tr) = deliveries tr := rfl

@[simp] theorem deliveries_cons_publish {ρ ε : Type} (msg : Message) (input : PublishInput) (id : ρ)
    (err : Option ε) (tr : List (Event ρ ε)) :
    deliveries (Event.publish msg input id err :: tr) = ⟨msg, input, id, err⟩ :: deliveries tr := rfl

@[simp] theorem deliveries_cons_log {ρ ε : Type} (line : String) (tr : List (Event ρ ε)) :
    deliveries (Event.log line :: tr) = deliveries tr := rfl

@[simp] theorem callsOf_nil {ρ ε : Type} : callsOf ([] : List (Event ρ ε)) = [] := rfl

@[simp] theorem callsOf_append {ρ ε : Type} (t u : List (Event ρ ε)) :
    callsOf (t ++ u) = callsOf t ++ callsOf u := by
  simp [callsOf, List.filterMap_append]

@[simp] theorem callsOf_cons_call {ρ ε : Type} (c : List String) (tr : List (Event ρ ε)) :
    callsOf (Event.call c :: tr) = c :: callsOf tr := rfl

@[simp] theorem callsOf_cons_marshal {ρ ε : Type} (msg : Message) (res : Except ε String)
    (tr : List (Event ρ ε)) :
    callsOf (Event.marshal msg res :: tr) = callsOf tr := rfl

@[simp] theorem callsOf_cons_publish {ρ ε : Type} (msg : Message) (input : PublishInput) (id : ρ)
    (err : Option ε) (tr : List (Event ρ ε)) :
    callsOf (Event.publish msg input id err :: tr) = callsOf tr := rfl

@[simp] theorem callsOf_cons_log {ρ ε : Type} (line : String) (tr : List (Event ρ ε)) :
    callsOf (Event.log line :: tr) = callsOf tr := rfl

@[simp] theorem marshalled_nil {ρ ε : Type} : marshalled ([] : List (Event ρ ε)) = [] := rfl

@[simp] theorem marshalled_append {ρ ε : Type} (t u : List (Event ρ ε)) :
    marshalled (t ++ u) = marshalled t ++ marshalled u := by
  simp [marshalled, List.filterMap_append]

@[simp] theorem marshalled_cons_call {ρ ε : Type} (c : List String) (tr : List (Event ρ ε)) :
    marshalled (Event.call c :: tr) = marshalled tr := rfl

@[simp] theorem marshalled_cons_marshal {ρ ε : Type} (msg : Message) (res : Except ε String)
    (tr : List (Event ρ ε)) :
    marshalled (Event.marshal msg res :: tr) = msg :: marshalled tr := rfl

@[simp] theorem marshalled_cons_publish {ρ ε : Type} (msg : Message) (input : PublishInput) (id : ρ)
    (err : Option ε) (tr : List (Event ρ ε)) :
    marshalled (Event.publish msg input id err :: tr) = marshalled tr := rfl

@[simp] theorem marshalled_cons_log {ρ ε : Type} (line : String) (tr : List (Event ρ ε)) :
    marshalled (Event.log line :: tr) = marshalled tr := rfl

@[simp] theorem logLines_nil {ρ ε : Type} : logLines ([] : List (Event ρ ε)) = [] := rfl

@[simp] theorem logLines_append {ρ ε : Type} (t u : List (Event ρ ε)) :
    logLines (t ++ u) = logLines t ++ logLines u := by
  simp [logLines, List.filterMap_append]

@[simp] theorem logLines_cons_call {ρ ε : Type} (c : List String) (tr : List (Event ρ ε)) :
    logLines (Event.call c :: tr) = logLines tr := rfl

@[simp] theorem logLines_cons_marshal {ρ ε : Type} (msg : Message) (res : Except ε String)
    (tr : List (Event ρ ε)) :
    logLines (Event.marshal msg res :: tr) = logLines tr := rfl

@[simp] theorem logLines_cons_publish {ρ ε : Type} (msg : Message) (input : PublishInput) (id : ρ)
    (err : Option ε) (tr : List (Event ρ ε)) :
    logLines (Event.publish msg input id err :: tr) = logLines tr := rfl

@[simp] theorem logLines_cons_log {ρ ε : Type} (line : String) (tr : List (Event ρ ε)) :
    logLines (Event.log line :: tr) = line :: logLines tr := rfl

@[simp] theorem failures_nil {ρ ε : Type} : failures ([] : List (Event ρ ε)) = [] := rfl

@[simp] theorem failures_append {ρ ε : Type} (t u : List (Event ρ ε)) :
    failures (t ++ u) = failures t ++ failures u := by
  simp [failures, List.filterMap_append]

@[simp] theorem failures_cons_call {ρ ε : Type} (c : List String) (tr : List (Event ρ ε)) :
    failures (Event.call c :: tr) = failures tr := rfl

@[simp] theorem failures_cons_marshal_ok {ρ ε : Type} (msg : Message) (b : String)
    (tr : List (Event ρ ε)) :
    failures (Event.marshal msg (.ok b) :: tr) = failures tr := rfl

@[simp] theorem failures_cons_marshal_error {ρ ε : Type} (msg : Message) (e : ε)
    (tr : List (Event ρ ε)) :
    failures (Event.marshal msg (.error e) :: tr) = e :: failures tr := rfl

@[simp] theorem failures_cons_publish_nil {ρ ε : Type} (msg : Message) (input : PublishInput) (id : ρ)
    (tr : List (Event ρ ε)) :
    failures (Event.publish msg input id none :: tr) = failures tr := rfl

@[simp] theorem failures_cons_publish_err {ρ ε : Type} (msg : Message) (input : PublishInput) (id : ρ)
    (e : ε) (tr : List (Event ρ ε)) :
    failures (Event.publish msg input id (some e) :: tr) = e :: failures tr := rfl

@[simp] theorem failures_cons_log {ρ ε : Type} (line : String) (tr : List (Event ρ ε)) :
    failures (Event.log line :: tr) = failures tr := rfl

@[simp] theorem delivered_nil {ρ ε : Type} : delivered ([] : List (Event ρ ε)) = [] := rfl

@[simp] theorem delivered_append {ρ ε : Type} (t u : List (Event ρ ε)) :
    delivered (t ++ u) = delivered t ++ delivered u := by
  simp [delivered]

@[simp] theorem delivered_cons_call {ρ ε : Type} (c : List String) (tr : List (Event ρ ε)) :
    delivered (Event.call c :: tr) = delivered tr := rfl

@[simp] theorem delivered_cons_marshal {ρ ε : Type} (msg : Message) (res : Except ε String)
    (tr : List (Event ρ ε)) :
    delivered (Event.marshal msg res :: tr) = delivered tr := rfl

@[simp] theorem delivered_cons_publish_nil {ρ ε : Type} (msg : Message) (input : PublishInput)
    (id : ρ) (tr : List (Event ρ ε)) :
    delivered (Event.publish msg input id none :: tr) = ⟨msg, input, id, none⟩ :: delivered tr := rfl

@[simp] theorem delivered_cons_publish_err {ρ ε : Type} (msg : Message) (input : PublishInput)
    (id : ρ) (e : ε) (tr : List (Event ρ ε)) :
    delivered (Event.publish msg input id (some e) :: tr) = delivered tr := rfl

@[simp] theorem delivered_cons_log {ρ ε : Type} (line : String) (tr : List (Event ρ ε)) :
    delivered (Event.log line :: tr) = delivered tr := rfl

@[simp] theorem marshalResults_nil {ρ ε : Type} : marshalResults ([] : List (Event ρ ε)) = [] := rfl

@[simp] theorem marshalResults_append {ρ ε : Type} (t u : List (Event ρ ε)) :
    marshalResults (t ++ u) = marshalResults t ++ marshalResults u := by
  simp [marshalResults, List.filterMap_append]

@[simp] theorem marshalResults_cons_call {ρ ε : Type} (c : List String) (tr : List (Event ρ ε)) :
    marshalResults (Event.call c :: tr) = marshalResults tr := rfl

@[simp] theorem marshalResults_cons_marshal {ρ ε : Type} (msg : Message) (res : Except ε String)
    (tr : List (Event ρ ε)) :
    marshalResults (Event.marshal msg res :: tr) = (msg, res) :: marshalResults tr := rfl

@[simp] theorem marshalResults_cons_publish {ρ ε : Type} (msg : Message) (input : PublishInput) (id : ρ)
    (err : Option ε) (tr : List (Event ρ ε)) :
    marshalResults (Event.publish msg input id err :: tr) = marshalResults tr := rfl

@[simp] theorem marshalResults_cons_log {ρ ε : Type} (line : String) (tr : List (Event ρ ε)) :
    marshalResults (Event.log line :: tr) = marshalResults tr := rfl

/-! ### One step of the run, by cases -/

/-- The three ways the run over `c :: cs` can start: the encoder fails, the
delivery fails, or the delivery succeeds and the run goes on with `cs`. -/
theorem runChunks_cons {σ ρ ε : Type} (L : Env ρ ε) (s : SNSMessageService σ ρ ε)
    (c : List String) (cs : List (List String)) (st : σ) :
    (∃ e, L.Marshal ⟨"touch", c⟩ = .error e ∧
        runChunks L s (c :: cs) st =
          (some e, st, [Event.call c, Event.marshal ⟨"touch", c⟩ (.error e)])) ∨
    (∃ b id e st', L.Marshal ⟨"touch", c⟩ = .ok b ∧
        s.conn.Publish st ⟨b, s.topicArn⟩ = (id, some e, st') ∧
        runChunks L s (c :: cs) st =
          (some e, st', [Event.call c, Event.marshal ⟨"touch", c⟩ (.ok b),
            Event.publish ⟨"touch", c⟩ ⟨b, s.topicArn⟩ id (some e),
            Event.log ("[MESSAGE ID] " ++ L.format id)])) ∨
    (∃ b id st', L.Marshal ⟨"touch", c⟩ = .ok b ∧
        s.conn.Publish st ⟨b, s.topicArn⟩ = (id, none, st') ∧
        runChunks L s (c :: cs) st =
          ((runChunks L s cs st').1, (runChunks L s cs st').2.1,
            [Event.call c, Event.marshal ⟨"touch", c⟩ (.ok b),
              Event.publish ⟨"touch", c⟩ ⟨b, s.topicArn⟩ id none,
              Event.log ("[MESSAGE ID] " ++ L.format id)] ++ (runChunks L s cs st').2.2)) := by
  rcases hM : L.Marshal ⟨"touch", c⟩ with e | b
  · left
    exact ⟨e, rfl, by simp [runChunks, stepChunk, hM]⟩
  · right
    rcases hP : s.conn.Publish st ⟨b, s.topicArn⟩ with ⟨id, err, st'⟩
    cases err with
    | some e =>
      left
      exact ⟨b, id, e, st', rfl, hP, by simp [runChunks, stepChunk, hM, hP]⟩
    | none =>
      right
      exact ⟨b, id, st', rfl, hP, by simp [runChunks, stepChunk, hM, hP]⟩

/-! ### Properties of the run over a list of batches -/

/-- The returned error is the first error of the trace. -/
theorem run_result {σ ρ ε : Type} (L : Env ρ ε) (s : SNSMessageService σ ρ ε)
    (cs : List (List String)) :
    ∀ st : σ, (runChunks L s cs st).1 = (failures (runChunks L s cs st).2.2).head? := by
  induction cs with
  | nil => intro st; simp [runChunks]
  | cons c cs ih =>
    intro st
    rcases runChunks_cons L s c cs st with
      ⟨e, _, h⟩ | ⟨b, id, e, st', _, _, h⟩ | ⟨b, id, st', _, _, h⟩
    · rw [h]; simp
    · rw [h]; simp
    · rw [h]; simpa using ih st'

/-- After a `nil` return every batch was entered, encoded and delivered, and
nothing failed. -/
theorem run_ok {σ ρ ε : Type} (L : Env ρ ε) (s : SNSMessageService σ ρ ε)
    (cs : List (List String)) :
    ∀ st : σ, (runChunks L s cs st).1 = none →
      callsOf (runChunks L s cs st).2.2 = cs ∧
      (deliveries (runChunks L s cs st).2.2).map (fun d => d.msg.Entities) = cs ∧
      delivered (runChunks L s cs st).2.2 = deliveries (runChunks L s cs st).2.2 ∧
      failures (runChunks L s cs st).2.2 = [] := by
  induction cs with
  | nil => intro st _; simp [runChunks]
  | cons c cs ih =>
    intro st
    rcases runChunks_cons L s c cs st with
      ⟨e, _, h⟩ | ⟨b, id, e, st', _, _, h⟩ | ⟨b, id, st', _, _, h⟩
    · rw [h]; simp
    · rw [h]; simp
    · rw [h]
      intro hr
      obtain ⟨h1, h2, h3, h4⟩ := ih st' hr
      simp [h1, h2, h3, h4]

/-- After an error return fewer batches were delivered than there are, the
failing batch is the last one entered, and the error is the only one. -/
theorem run_err {σ ρ ε : Type} (L : Env ρ ε) (s : SNSMessageService σ ρ ε)
    (cs : List (List String)) :
    ∀ (st : σ) (e : ε), (runChunks L s cs st).1 = some e →
      (delivered (runChunks L s cs st).2.2).length < cs.length ∧
      (callsOf (runChunks L s cs st).2.2).length =
        (delivered (runChunks L s cs st).2.2).length + 1 ∧
      failures (runChunks L s cs st).2.2 = [e] := by
  induction cs with
  | nil => intro st e; simp [runChunks]
  | cons c cs ih =>
    intro st e0
    rcases runChunks_cons L s c cs st with
      ⟨e, _, h⟩ | ⟨b, id, e, st', _, _, h⟩ | ⟨b, id, st', _, _, h⟩
    · rw [h]; simp
    · rw [h]; simp
    · rw [h]
      intro hr
      obtain ⟨h1, h2, h3⟩ := ih st' e0 hr
      simp [h1, h2, h3]

/-- The slices entered, the envelopes delivered and the envelopes delivered
with success are each an initial segment of the list of batches. -/
theorem run_take {σ ρ ε : Type} (L : Env ρ ε) (s : SNSMessageService σ ρ ε)
    (cs : List (List String)) :
    ∀ st : σ,
      callsOf (runChunks L s cs st).2.2 = cs.take (callsOf (runChunks L s cs st).2.2).length ∧
      (deliveries (runChunks L s cs st).2.2).map (fun d => d.msg.Entities) =
        cs.take (deliveries (runChunks L s cs st).2.2).length ∧
      (delivered (runChunks L s cs st).2.2).map (fun d => d.msg.Entities) =
        cs.take (delivered (runChunks L s cs st).2.2).length := by
  induction cs with
  | nil => intro st; simp [runChunks]
  | cons c cs ih =>
    intro st
    rcases runChunks_cons L s c cs st with
      ⟨e, _, h⟩ | ⟨b, id, e, st', _, _, h⟩ | ⟨b, id, st', _, _, h⟩
    · rw [h]; simp
    · rw [h]; simp
    · rw [h]
      obtain ⟨h1, h2, h3⟩ := ih st'
      simp only [List.cons_append, List.nil_append, callsOf_cons_call, callsOf_cons_marshal,
        callsOf_cons_publish, callsOf_cons_log, deliveries_cons_call, deliveries_cons_marshal,
        deliveries_cons_publish, deliveries_cons_log, delivered_cons_call,
        delivered_cons_marshal, delivered_cons_publish_nil, delivered_cons_log,
        List.length_cons, List.take_succ_cons, List.map_cons]
      exact ⟨by rw [← h1], by rw [← h2], by rw [← h3]⟩

/-- A delivery that fails is the last delivery of the run, and its error is returned. -/
theorem run_fail_at {σ ρ ε : Type} (L : Env ρ ε) (s : SNSMessageService σ ρ ε)
    (cs : List (List String)) :
    ∀ (st : σ) (k : Nat) (d : Delivery ρ ε) (e : ε),
      (deliveries (runChunks L s cs st).2.2)[k]? = some d → d.err = some e →
      (runChunks L s cs st).1 = some e ∧
      (deliveries (runChunks L s cs st).2.2).length = k + 1 ∧
      (delivered (runChunks L s cs st).2.2).length = k := by
  induction cs with
  | nil => intro st k d e; simp [runChunks]
  | cons c cs ih =>
    intro st k d e0
    rcases runChunks_cons L s c cs st with
      ⟨e, _, h⟩ | ⟨b, id, e, st', _, _, h⟩ | ⟨b, id, st', _, _, h⟩
    · rw [h]; simp
    · rw [h]
      cases k with
      | zero =>
        simp only [List.cons_append, List.nil_append, deliveries_cons_call,
          deliveries_cons_marshal, deliveries_cons_publish, deliveries_cons_log, deliveries_nil,
          List.getElem?_cons_zero, Option.some.injEq]
        rintro rfl hd
        simp only [Option.some.injEq] at hd
        simp [hd]
      | succ k => simp
    · rw [h]
      cases k with
      | zero =>
        simp only [List.cons_append, List.nil_append, deliveries_cons_call,
          deliveries_cons_marshal, deliveries_cons_publish, deliveries_cons_log,
          List.getElem?_cons_zero, Option.some.injEq]
        rintro rfl hd
        simp at hd
      | succ k =>
        simp only [List.cons_append, List.nil_append, deliveries_cons_call,
          deliveries_cons_marshal, deliveries_cons_publish, deliveries_cons_log,
          List.getElem?_cons_succ, delivered_cons_call, delivered_cons_marshal,
          delivered_cons_publish_nil, delivered_cons_log, List.length_cons]
        intro hk hd
        obtain ⟨h1, h2, h3⟩ := ih st' k d e0 hk hd
        exact ⟨h1, by omega, by omega⟩

/-- Each log line is written right after a delivery call, from the value that call returned. -/
theorem run_log {σ ρ ε : Type} (L : Env ρ ε) (s : SNSMessageService σ ρ ε)
    (cs : List (List String)) :
    ∀ st : σ, logLines (runChunks L s cs st).2.2 =
      (deliveries (runChunks L s cs st).2.2).map
        (fun d => "[MESSAGE ID] " ++ L.format d.msgID) := by
  induction cs with
  | nil => intro st; simp [runChunks]
  | cons c cs ih =>
    intro st
    rcases runChunks_cons L s c cs st with
      ⟨e, _, h⟩ | ⟨b, id, e, st', _, _, h⟩ | ⟨b, id, st', _, _, h⟩
    · rw [h]; simp
    · rw [h]; simp
    · rw [h]; simpa using ih st'

/-- Every delivery call carries the encoding of a `touch` envelope to the topic of the service. -/
theorem run_delivery {σ ρ ε : Type} (L : Env ρ ε) (s : SNSMessageService σ ρ ε)
    (cs : List (List String)) :
    ∀ (st : σ) (d : Delivery ρ ε), d ∈ deliveries (runChunks L s cs st).2.2 →
      d.msg.Action = "touch" ∧ d.msg.Entities ∈ cs ∧
      L.Marshal d.msg = .ok d.input.Message ∧ d.input.TopicArn = s.topicArn := by
  induction cs with
  | nil => intro st d; simp [runChunks]
  | cons c cs ih =>
    intro st d
    rcases runChunks_cons L s c cs st with
      ⟨e, _, h⟩ | ⟨b, id, e, st', hM, _, h⟩ | ⟨b, id, st', hM, _, h⟩
    · rw [h]; simp
    · rw [h]
      simp only [deliveries_cons_call, deliveries_cons_marshal, deliveries_cons_publish,
        deliveries_cons_log, deliveries_nil, List.mem_singleton]
      rintro rfl
      simp [hM]
    · rw [h]
      simp only [List.cons_append, List.nil_append, deliveries_cons_call,
        deliveries_cons_marshal, deliveries_cons_publish, deliveries_cons_log, List.mem_cons]
      rintro (rfl | hd)
      · simp [hM]
      · obtain ⟨h1, h2, h3, h4⟩ := ih st' d hd
        exact ⟨h1, Or.inr h2, h3, h4⟩

/-- When the encoder cannot fail and no delivery of the trace failed, the run returns `nil`. -/
theorem run_nil_of_ok {σ ρ ε : Type} (L : Env ρ ε) (s : SNSMessageService σ ρ ε)
    (hser : ∀ c, ∃ b, L.Marshal ⟨"touch", c⟩ = .ok b) (cs : List (List String)) :
    ∀ st : σ, (∀ d ∈ deliveries (runChunks L s cs st).2.2, d.err = none) →
      (runChunks L s cs st).1 = none := by
  induction cs with
  | nil => intro st; simp [runChunks]
  | cons c cs ih =>
    intro st
    rcases runChunks_cons L s c cs st with
      ⟨e, hM, h⟩ | ⟨b, id, e, st', _, _, h⟩ | ⟨b, id, st', _, _, h⟩
    · obtain ⟨b, hb⟩ := hser c
      rw [hb] at hM
      cases hM
    · rw [h]; simp
    · rw [h]
      intro hall
      apply ih st'
      intro d hd
      apply hall
      simp [hd]

/-- The rendering used for the log line has no influence on the returned
error, on the client state or on the delivery calls. -/
theorem run_format {σ ρ ε : Type} (L : Env ρ ε) (s : SNSMessageService σ ρ ε)
    (f : ρ → String) (cs : List (List String)) :
    ∀ st : σ,
      (runChunks { Marshal := L.Marshal, format := f } s cs st).1 = (runChunks L s cs st).1 ∧
      (runChunks { Marshal := L.Marshal, format := f } s cs st).2.1 =
        (runChunks L s cs st).2.1 ∧
      deliveries (runChunks { Marshal := L.Marshal, format := f } s cs st).2.2 =
        deliveries (runChunks L s cs st).2.2 := by
  induction cs with
  | nil => intro st; simp [runChunks]
  | cons c cs ih =>
    intro st
    rcases runChunks_cons L s c cs st with
      ⟨e, hM, h⟩ | ⟨b, id, e, st', hM, hP, h⟩ | ⟨b, id, st', hM, hP, h⟩
    · rw [h]; simp [runChunks, stepChunk, hM]
    · rw [h]; simp [runChunks, stepChunk, hM, hP]
    · rw [h]
      obtain ⟨h1, h2, h3⟩ := ih st'
      simp [runChunks, stepChunk, hM, hP, h1, h2, h3]

/-- With an encoder and a client that never fail, the trace holds no error. -/
theorem run_failures_nil {σ ρ ε : Type} (L : Env ρ ε) (s : SNSMessageService σ ρ ε)
    (hser : ∀ c, ∃ b, L.Marshal ⟨"touch", c⟩ = .ok b)
    (hconn : ∀ st input, (s.conn.Publish st input).2.1 = none) (cs : List (List String)) :
    ∀ st : σ, failures (runChunks L s cs st).2.2 = [] := by
  induction cs with
  | nil => intro st; simp [runChunks]
  | cons c cs ih =>
    intro st
    rcases runChunks_cons L s c cs st with
      ⟨e, hM, h⟩ | ⟨b, id, e, st', _, hP, h⟩ | ⟨b, id, st', _, _, h⟩
    · obtain ⟨b, hb⟩ := hser c
      rw [hb] at hM
      cases hM
    · have := hconn st ⟨b, s.topicArn⟩
      rw [hP] at this
      cases this
    · rw [h]; simpa using ih st'

/-! ### From the run over the batches to `Publish` -/

theorem eventsOf_eq {σ ρ ε : Type} (L : Env ρ ε) (s : SNSMessageService σ ρ ε)
    (xs : List String) (st : σ) :
    eventsOf L s xs st = (runChunks L s (chunks xs) st).2.2 := by
  simp [eventsOf, Publish_eq]

theorem resultOf_eq {σ ρ ε : Type} (L : Env ρ ε) (s : SNSMessageService σ ρ ε)
    (xs : List String) (st : σ) :
    resultOf L s xs st = Outcome.returned (runChunks L s (chunks xs) st).1 := by
  simp [resultOf, Publish_eq]

/-- A call of `Publish` appends its events to the trace and is otherwise
independent of the trace it starts with. -/
theorem Publish_frame {σ ρ ε : Type} (L : Env ρ ε) (s : SNSMessageService σ ρ ε)
    (xs : List String) (w : World σ ρ ε) :
    (Publish L s xs w).1 = resultOf L s xs w.conn ∧
    (Publish L s xs w).2.trace = w.trace ++ eventsOf L s xs w.conn ∧
    (Publish L s xs w).2.conn = (Publish L s xs { conn := w.conn, trace := [] }).2.conn := by
  simp [resultOf, eventsOf, Publish_eq]

/-! ### The claims -/

/-- C1: when the encoder does not fail (it cannot, on an envelope of a string
and a list of strings) and every delivery call of the run succeeds, the
`Entities` of the delivered messages, concatenated in delivery order, are
exactly the input list. -/
theorem publish_entities_concat {σ ρ ε : Type} (L : Env ρ ε) (s : SNSMessageService σ ρ ε)
    (subjects : List String) (st : σ)
    (hser : ∀ c, ∃ b, L.Marshal ⟨"touch", c⟩ = .ok b)
    (hdel : ∀ d ∈ deliveries (eventsOf L s subjects st), d.err = none) :
    ((delivered (eventsOf L s subjects st)).map fun d => d.msg.Entities).flatten = subjects := by
  rw [eventsOf_eq] at hdel ⊢
  have hnil := run_nil_of_ok L s hser (chunks subjects) st hdel
  obtain ⟨_, h2, h3, _⟩ := run_ok L s (chunks subjects) st hnil
  rw [h3, h2, flatten_chunks]

theorem publish_entities_concat_witness :
    ((delivered (eventsOf demoEnv (demoService 0) ["a", "b", "a", ""] 0)).map
      fun d => d.msg.Entities).flatten = ["a", "b", "a", ""] :=
  publish_entities_concat demoEnv (demoService 0) ["a", "b", "a", ""] 0
    (fun c => ⟨_, rfl⟩) (by rw [eventsOf_eq]; decide)

/-- C2: when the encoder does not fail and every delivery call of the run
succeeds, `Publish` makes exactly `ceil (n / 50)` delivery calls for `n`
subjects, and none at all for `n = 0`. -/
theorem publish_call_count {σ ρ ε : Type} (L : Env ρ ε) (s : SNSMessageService σ ρ ε)
    (subjects : List String) (st : σ)
    (hser : ∀ c, ∃ b, L.Marshal ⟨"touch", c⟩ = .ok b)
    (hdel : ∀ d ∈ deliveries (eventsOf L s subjects st), d.err = none) :
    (deliveries (eventsOf L s subjects st)).length = ⌈(subjects.length : ℚ) / 50⌉₊ ∧
    (subjects.length = 0 → (deliveries (eventsOf L s subjects st)).length = 0) := by
  rw [eventsOf_eq] at hdel ⊢
  have hnil := run_nil_of_ok L s hser (chunks subjects) st hdel
  obtain ⟨_, h2, _, _⟩ := run_ok L s (chunks subjects) st hnil
  have hlen : (deliveries (runChunks L s (chunks subjects) st).2.2).length =
      numChunks subjects.length := by
    have := congrArg List.length h2
    rw [List.length_map, chunks_length] at this
    exact this
  refine ⟨by rw [hlen, numChunks_eq_ceil], ?_⟩
  intro h0
  rw [hlen, h0]
  rfl

theorem publish_call_count_witness :
    (deliveries (eventsOf demoEnv (demoService 0) (List.replicate 101 "x") 0)).length =
        ⌈((List.replicate 101 "x").length : ℚ) / 50⌉₊ ∧
    ((List.replicate 101 "x").length = 0 →
      (deliveries (eventsOf demoEnv (demoService 0) (List.replicate 101 "x") 0)).length = 0) :=
  publish_call_count demoEnv (demoService 0) (List.replicate 101 "x") 0
    (fun c => ⟨_, rfl⟩) (by rw [eventsOf_eq]; decide)

/-- C3: if delivery call number `k` (counting from 1) of a run of `Publish`
returns the error `e`, then `Publish` returns exactly `e`, exactly `k` delivery
calls were made (there is no later one), and the `k - 1` earlier ones all
succeeded. For 50 subjects the failing call is the only one and nothing was
delivered with success. -/
theorem publish_first_failure {σ ρ ε : Type} (L : Env ρ ε) (s : SNSMessageService σ ρ ε)
    (subjects : List String) (st : σ) (k : Nat) (e : ε) (hk : 1 ≤ k)
    (hfail : ((deliveries (eventsOf L s subjects st))[k - 1]?).map (fun d => d.err) =
      some (some e)) :
    resultOf L s subjects st = Outcome.returned (some e) ∧
    (deliveries (eventsOf L s subjects st)).length = k ∧
    (delivered (eventsOf L s subjects st)).length = k - 1 ∧
    (subjects.length = 50 → k = 1 ∧ delivered (eventsOf L s subjects st) = []) := by
  rw [eventsOf_eq] at hfail ⊢
  rw [resultOf_eq]
  cases hd : (deliveries (runChunks L s (chunks subjects) st).2.2)[k - 1]? with
  | none => simp [hd] at hfail
  | some d =>
    have he : d.err = some e := by simpa [hd] using hfail
    obtain ⟨h1, h2, h3⟩ := run_fail_at L s (chunks subjects) st (k - 1) d e hd he
    have hk2 : (deliveries (runChunks L s (chunks subjects) st).2.2).length = k := by omega
    refine ⟨by rw [h1], hk2, h3, ?_⟩
    intro h50
    have hle : (deliveries (runChunks L s (chunks subjects) st).2.2).length ≤
        (chunks subjects).length := by
      have := congrArg List.length (run_take L s (chunks subjects) st).2.1
      rw [List.length_map, List.length_take] at this
      omega
    have hone : (chunks subjects).length = 1 := by
      rw [chunks_length, h50]
      rfl
    have hk1 : k = 1 := by omega
    refine ⟨hk1, ?_⟩
    apply List.eq_nil_of_length_eq_zero
    omega

theorem publish_first_failure_witness :
    resultOf demoEnv (demoService 2) (List.replicate 120 "x") 0 =
        Outcome.returned (some "delivery failed") ∧
    (deliveries (eventsOf demoEnv (demoService 2) (List.replicate 120 "x") 0)).length = 2 ∧
    (delivered (eventsOf demoEnv (demoService 2) (List.replicate 120 "x") 0)).length = 2 - 1 ∧
    ((List.replicate 120 "x").length = 50 →
      2 = 1 ∧ delivered (eventsOf demoEnv (demoService 2) (List.replicate 120 "x") 0) = []) :=
  publish_first_failure demoEnv (demoService 2) (List.replicate 120 "x") 0 2 "delivery failed"
    (by decide) (by rw [eventsOf_eq]; decide)

/-- C5: for a non-empty input of `n` subjects, when the encoder does not fail
and every delivery call of the run succeeds, every delivered envelope but the
last carries exactly 50 entities and the last carries `n mod 50`, or 50 when `n`
is a multiple of 50. -/
theorem publish_entity_counts {σ ρ ε : Type} (L : Env ρ ε) (s : SNSMessageService σ ρ ε)
    (subjects : List String) (st : σ) (hne : subjects ≠ [])
    (hser : ∀ c, ∃ b, L.Marshal ⟨"touch", c⟩ = .ok b)
    (hdel : ∀ d ∈ deliveries (eventsOf L s subjects st), d.err = none) :
    (delivered (eventsOf L s subjects st)).map (fun d => d.msg.Entities.length) =
      List.replicate (⌈(subjects.length : ℚ) / 50⌉₊ - 1) 50 ++
        [if subjects.length % 50 = 0 then 50 else subjects.length % 50] := by
  rw [eventsOf_eq] at hdel ⊢
  have hnil := run_nil_of_ok L s hser (chunks subjects) st hdel
  obtain ⟨_, h2, h3, _⟩ := run_ok L s (chunks subjects) st hnil
  have hmap := congrArg (List.map List.length) h2
  rw [List.map_map] at hmap
  rw [← numChunks_eq_ceil, ← chunks_lengths subjects hne, h3, ← hmap]
  rfl

theorem publish_entity_counts_witness :
    (delivered (eventsOf demoEnv (demoService 0) (List.replicate 100 "x") 0)).map
        (fun d => d.msg.Entities.length) =
      List.replicate (⌈((List.replicate 100 "x").length : ℚ) / 50⌉₊ - 1) 50 ++
        [if (List.replicate 100 "x").length % 50 = 0 then 50
          else (List.replicate 100 "x").length % 50] :=
  publish_entity_counts demoEnv (demoService 0) (List.replicate 100 "x") 0
    (by decide) (fun c => ⟨_, rfl⟩) (by rw [eventsOf_eq]; decide)

/-- C6: whatever the encoder and the SNS client do, every message `Publish`
hands to the client carries at least 1 and at most 50 entities. -/
theorem publish_batch_bounds {σ ρ ε : Type} (L : Env ρ ε) (s : SNSMessageService σ ρ ε)
    (subjects : List String) (st : σ) (d : Delivery ρ ε)
    (hd : d ∈ deliveries (eventsOf L s subjects st)) :
    1 ≤ d.msg.Entities.length ∧ d.msg.Entities.length ≤ 50 := by
  rw [eventsOf_eq] at hd
  obtain ⟨_, hmem, _, _⟩ := run_delivery L s (chunks subjects) st d hd
  exact chunk_length_bounds subjects _ hmem

theorem publish_batch_bounds_witness :
    1 ≤ (["x"] : List String).length ∧ (["x"] : List String).length ≤ 50 :=
  publish_batch_bounds demoEnv (demoService 2) (List.replicate 51 "x") 0
    ⟨⟨"touch", ["x"]⟩, ⟨"touch:x", some "arn:topic"⟩, "", some "delivery failed"⟩
    (by rw [eventsOf_eq]; decide)

/-- C7: on the empty list `Publish` returns `nil` and leaves the world as it
was: no delivery call and no call of the encoder, whatever the SNS client
would have answered. -/
theorem publish_empty {σ ρ ε : Type} (L : Env ρ ε) (s : SNSMessageService σ ρ ε)
    (w : World σ ρ ε) :
    Publish L s [] w = (Outcome.returned none, w) ∧
    deliveries (eventsOf L s [] w.conn) = [] ∧
    marshalled (eventsOf L s [] w.conn) = [] ∧
    eventsOf L s [] w.conn = [] := by
  have h : ∀ w' : World σ ρ ε, Publish L s [] w' = (Outcome.returned none, w') := by
    intro w'
    rw [Publish, Publish.loop]
    simp
  exact ⟨h w, by simp [eventsOf, h], by simp [eventsOf, h], by simp [eventsOf, h]⟩

/-- C4: the slice of index `j` (from 0) that `Publish` passes to
`publishMessage` is the sub-list of the input at the indices
`[50 * j, min (50 * j + 50) n)`, and `j` is below `ceil (n / 50)`; when nothing
fails, there is such a slice for every `j` below `ceil (n / 50)`. For the 120
subjects `s1 .. s120` and a run without failure the slices have lengths 50, 50
and 20 and the second one is `s51 .. s100`. -/
theorem publish_chunks {σ ρ ε : Type} (L : Env ρ ε) (s : SNSMessageService σ ρ ε) (st : σ) :
    (∀ (subjects : List String) (j : Nat) (c : List String),
      (callsOf (eventsOf L s subjects st))[j]? = some c →
        j < ⌈(subjects.length : ℚ) / 50⌉₊ ∧
        c = (subjects.drop (50 * j)).take (min (50 * j + 50) subjects.length - 50 * j)) ∧
    (∀ (subjects : List String), failures (eventsOf L s subjects st) = [] →
      ∀ j, j < ⌈(subjects.length : ℚ) / 50⌉₊ →
        (callsOf (eventsOf L s subjects st))[j]? =
          some ((subjects.drop (50 * j)).take (min (50 * j + 50) subjects.length - 50 * j))) ∧
    (failures (eventsOf L s subjects120 st) = [] →
      (callsOf (eventsOf L s subjects120 st)).map List.length = [50, 50, 20] ∧
      (callsOf (eventsOf L s subjects120 st))[1]? =
        some ((List.range' 51 50).map fun i => "s" ++ toString i)) := by
  have hall : ∀ subjects : List String, failures (eventsOf L s subjects st) = [] →
      callsOf (eventsOf L s subjects st) = chunks subjects := by
    intro subjects hf
    rw [eventsOf_eq] at hf ⊢
    have hnil : (runChunks L s (chunks subjects) st).1 = none := by
      rw [run_result, hf]
      rfl
    exact (run_ok L s (chunks subjects) st hnil).1
  refine ⟨?_, ?_, ?_⟩
  · intro subjects j c hc
    rw [eventsOf_eq] at hc
    rw [(run_take L s (chunks subjects) st).1, List.getElem?_take] at hc
    split_ifs at hc with hlt
    have hj : j < numChunks subjects.length := by
      by_contra hcon
      rw [List.getElem?_eq_none (by rw [chunks_length]; omega)] at hc
      cases hc
    rw [chunks_getElem? subjects j hj] at hc
    refine ⟨by rw [← numChunks_eq_ceil]; exact hj, ?_⟩
    cases hc
    rfl
  · intro subjects hf j hj
    rw [hall subjects hf]
    rw [← numChunks_eq_ceil] at hj
    rw [chunks_getElem? subjects j hj]
    rfl
  · intro hf
    rw [hall subjects120 hf]
    have h120 : chunks (List.range' 1 120) =
        [List.range' 1 50, List.range' 51 50, List.range' 101 20] := by decide
    rw [subjects120, chunks_map, h120]
    simp

theorem publish_chunks_witness :
    (callsOf (eventsOf demoEnv (demoService 0) subjects120 0)).map List.length = [50, 50, 20] ∧
    (callsOf (eventsOf demoEnv (demoService 0) subjects120 0))[1]? =
      some ((List.range' 51 50).map fun i => "s" ++ toString i) :=
  (publish_chunks demoEnv (demoService 0) 0).2.2
    (by
      rw [eventsOf_eq]
      exact run_failures_nil demoEnv (demoService 0) (fun c => ⟨_, rfl⟩)
        (fun st input => by simp [demoService, NewSNSMessageService, demoConn]) _ 0)

/-- C8: `Publish` returns the first error of the run, `nil` when there is none
(it never panics); and it returns `nil` exactly when the envelopes delivered
with success are, in order, the batches of the partition of the input. -/
theorem publish_result {σ ρ ε : Type} (L : Env ρ ε) (s : SNSMessageService σ ρ ε)
    (subjects : List String) (st : σ) :
    resultOf L s subjects st = Outcome.returned (failures (eventsOf L s subjects st)).head? ∧
    (resultOf L s subjects st = Outcome.returned none ↔
      (delivered (eventsOf L s subjects st)).map (fun d => d.msg.Entities) = chunks subjects) := by
  rw [eventsOf_eq, resultOf_eq]
  refine ⟨by rw [run_result], ?_⟩
  constructor
  · intro h
    have hnil : (runChunks L s (chunks subjects) st).1 = none := Outcome.returned.inj h
    obtain ⟨_, h2, h3, _⟩ := run_ok L s (chunks subjects) st hnil
    rw [h3, h2]
  · intro h
    cases hr : (runChunks L s (chunks subjects) st).1 with
    | none => rfl
    | some e =>
      have hlt := (run_err L s (chunks subjects) st e hr).1
      have := congrArg List.length h
      rw [List.length_map] at this
      omega

/-- C9: when the encoder returns `b` for the envelope with `Action` `"touch"`
and `Entities` the slice `c`, `publishMessage` makes exactly one delivery call,
with body `b` and with the topic the service was constructed with; and every
delivery call of every run of `Publish` carries that topic and the encoding of
a `"touch"` envelope. -/
theorem publishMessage_delivery {σ ρ ε : Type} (L : Env ρ ε) (conn : SNS σ ρ ε)
    (topic : Option String) (c : List String) (w : World σ ρ ε) (b : String)
    (hM : L.Marshal { Action := "touch", Entities := c } = .ok b) :
    deliveries (publishMessage L (NewSNSMessageService conn topic) c w).2.trace =
      deliveries w.trace ++
        [{ msg := { Action := "touch", Entities := c }
           input := { Message := b, TopicArn := topic }
           msgID := (conn.Publish w.conn { Message := b, TopicArn := topic }).1
           err := (conn.Publish w.conn { Message := b, TopicArn := topic }).2.1 }] ∧
    (publishMessage L (NewSNSMessageService conn topic) c w).1 =
      (conn.Publish w.conn { Message := b, TopicArn := topic }).2.1 ∧
    (∀ (subjects : List String) (st : σ),
      ∀ d ∈ deliveries (eventsOf L (NewSNSMessageService conn topic) subjects st),
        d.input.TopicArn = topic ∧ d.msg.Action = "touch" ∧
        L.Marshal d.msg = .ok d.input.Message) := by
  refine ⟨?_, ?_, ?_⟩
  · rw [publishMessage_eq]
    simp [stepChunk, hM, NewSNSMessageService]
  · rw [publishMessage_eq]
    simp [stepChunk, hM, NewSNSMessageService]
  · intro subjects st d hd
    rw [eventsOf_eq] at hd
    obtain ⟨h1, _, h3, h4⟩ := run_delivery L _ (chunks subjects) st d hd
    exact ⟨h4, h1, h3⟩

theorem publishMessage_delivery_witness :
    (deliveries (publishMessage demoEnv (NewSNSMessageService (demoConn 0) (some "arn:topic"))
        ["a", "", "a"] { conn := 0, trace := [] }).2.trace).map (fun d => d.input) =
      [{ Message := "touch:a,,a", TopicArn := some "arn:topic" }] := by
  have h := (publishMessage_delivery demoEnv (demoConn 0) (some "arn:topic") ["a", "", "a"]
    { conn := 0, trace := [] } "touch:a,,a" (by decide)).1
  rw [h]
  rfl

/-- C10, the claim as stated fails: a delivery that fails still writes a log line. -/
theorem publish_logs_failed_delivery :
    (deliveries (eventsOf demoEnv (demoService 1) ["a"] 0)).map (fun d => d.err) =
      [some "delivery failed"] ∧
    delivered (eventsOf demoEnv (demoService 1) ["a"] 0) = [] ∧
    logLines (eventsOf demoEnv (demoService 1) ["a"] 0) = ["[MESSAGE ID] "] := by
  rw [eventsOf_eq]
  decide

/-- C10, amended: the log lines of a run of `Publish` are exactly one per
delivery call, failed or not, in order, each made of `"[MESSAGE ID] "` and the
rendering of the value that call returned; and the rendering used changes
neither what `Publish` returns nor its delivery calls. -/
theorem publish_log_lines {σ ρ ε : Type} (L : Env ρ ε) (s : SNSMessageService σ ρ ε)
    (subjects : List String) (st : σ) :
    logLines (eventsOf L s subjects st) =
      (deliveries (eventsOf L s subjects st)).map
        (fun d => "[MESSAGE ID] " ++ L.format d.msgID) ∧
    (∀ f : ρ → String,
      resultOf { Marshal := L.Marshal, format := f } s subjects st = resultOf L s subjects st ∧
      deliveries (eventsOf { Marshal := L.Marshal, format := f } s subjects st) =
        deliveries (eventsOf L s subjects st)) := by
  refine ⟨by rw [eventsOf_eq, run_log], ?_⟩
  intro f
  obtain ⟨h1, _, h3⟩ := run_format L s f (chunks subjects) st
  rw [resultOf_eq, resultOf_eq, eventsOf_eq, eventsOf_eq, h1, h3]
  exact ⟨rfl, rfl⟩

/-! ### Failure of the encoder -/

/-- A call of the encoder that fails is the last call of the run: its error is
returned, it is followed by no delivery, and every batch before it was delivered
with success. -/
theorem run_marshal_fail {σ ρ ε : Type} (L : Env ρ ε) (s : SNSMessageService σ ρ ε)
    (cs : List (List String)) :
    ∀ (st : σ) (j : Nat) (e : ε),
      ((marshalResults (runChunks L s cs st).2.2)[j]?).map (fun r => r.2) = some (.error e) →
      (runChunks L s cs st).1 = some e ∧
      (marshalResults (runChunks L s cs st).2.2).length = j + 1 ∧
      (callsOf (runChunks L s cs st).2.2).length = j + 1 ∧
      (deliveries (runChunks L s cs st).2.2).length = j ∧
      delivered (runChunks L s cs st).2.2 = deliveries (runChunks L s cs st).2.2 := by
  induction cs with
  | nil => intro st j e; simp [runChunks]
  | cons c cs ih =>
    intro st j e0
    rcases runChunks_cons L s c cs st with
      ⟨e, _, h⟩ | ⟨b, id, e, st', _, _, h⟩ | ⟨b, id, st', _, _, h⟩
    · rw [h]
      cases j with
      | zero =>
        simp only [marshalResults_cons_call, marshalResults_cons_marshal, marshalResults_nil,
          List.getElem?_cons_zero, Option.map_some', Option.some.injEq, Except.error.injEq]
        rintro rfl
        simp
      | succ j => simp
    · rw [h]
      cases j with
      | zero => simp
      | succ j => simp
    · rw [h]
      cases j with
      | zero => simp
      | succ j =>
        simp only [List.cons_append, List.nil_append, marshalResults_cons_call,
          marshalResults_cons_marshal, marshalResults_cons_publish, marshalResults_cons_log,
          List.getElem?_cons_succ, callsOf_cons_call, callsOf_cons_marshal,
          callsOf_cons_publish, callsOf_cons_log, deliveries_cons_call,
          deliveries_cons_marshal, deliveries_cons_publish, deliveries_cons_log,
          delivered_cons_call, delivered_cons_marshal, delivered_cons_publish_nil,
          delivered_cons_log, List.length_cons]
        intro hj
        obtain ⟨h1, h2, h3, h4, h5⟩ := ih st' j e0 hj
        exact ⟨h1, by omega, by omega, by omega, by rw [h5]⟩

/-- The envelopes handed to the encoder are the `touch` envelopes of the slices
`publishMessage` was called with. -/
theorem run_marshalled {σ ρ ε : Type} (L : Env ρ ε) (s : SNSMessageService σ ρ ε)
    (cs : List (List String)) :
    ∀ st : σ, (marshalResults (runChunks L s cs st).2.2).map (fun r => r.1) =
      (callsOf (runChunks L s cs st).2.2).map (fun c => { Action := "touch", Entities := c }) := by
  induction cs with
  | nil => intro st; simp [runChunks]
  | cons c cs ih =>
    intro st
    rcases runChunks_cons L s c cs st with
      ⟨e, _, h⟩ | ⟨b, id, e, st', _, _, h⟩ | ⟨b, id, st', _, _, h⟩
    · rw [h]; simp
    · rw [h]; simp
    · rw [h]; simpa using ih st'

/-- C11: if the call of the encoder for the batch of index `j` (from 0) returns
the error `e`, then `Publish` returns `e`; that call is the last call of the
encoder and `publishMessage` is entered no further time; there are exactly `j`
delivery calls, all with success, and they carry the first `j` batches, so that
batch `j` and the later ones are not delivered. -/
theorem publish_marshal_failure {σ ρ ε : Type} (L : Env ρ ε) (s : SNSMessageService σ ρ ε)
    (subjects : List String) (st : σ) (j : Nat) (e : ε)
    (hfail : ((marshalResults (eventsOf L s subjects st))[j]?).map (fun r => r.2) =
      some (.error e)) :
    resultOf L s subjects st = Outcome.returned (some e) ∧
    ((marshalResults (eventsOf L s subjects st))[j]?).map (fun r => r.1) =
      some { Action := "touch", Entities := chunkAt subjects j } ∧
    (marshalResults (eventsOf L s subjects st)).length = j + 1 ∧
    (callsOf (eventsOf L s subjects st)).length = j + 1 ∧
    (deliveries (eventsOf L s subjects st)).length = j ∧
    delivered (eventsOf L s subjects st) = deliveries (eventsOf L s subjects st) ∧
    (deliveries (eventsOf L s subjects st)).map (fun d => d.msg.Entities) =
      (chunks subjects).take j := by
  rw [eventsOf_eq] at hfail ⊢
  rw [resultOf_eq]
  obtain ⟨h1, h2, h3, h4, h5⟩ := run_marshal_fail L s (chunks subjects) st j e hfail
  obtain ⟨t1, t2, _⟩ := run_take L s (chunks subjects) st
  rw [h4] at t2
  rw [h3] at t1
  refine ⟨by rw [h1], ?_, h2, h3, h4, h5, t2⟩
  have hlen : j < (chunks subjects).length := by
    have := congrArg List.length t1
    rw [h3, List.length_take] at this
    omega
  have hj : j < numChunks subjects.length := by rwa [chunks_length] at hlen
  have hm := run_marshalled L s (chunks subjects) st
  have hget := congrArg (fun l => l[j]?) hm
  simp only [List.getElem?_map] at hget
  rw [hget, t1, List.getElem?_take_of_lt (by omega), chunks_getElem? subjects j hj]
  rfl

theorem publish_marshal_failure_witness :
    resultOf strictEnv (demoService 0) (List.replicate 60 "x") 0 =
        Outcome.returned (some "unsupported value") ∧
    ((marshalResults (eventsOf strictEnv (demoService 0) (List.replicate 60 "x") 0))[1]?).map
        (fun r => r.1) =
      some { Action := "touch", Entities := chunkAt (List.replicate 60 "x") 1 } ∧
    (marshalResults (eventsOf strictEnv (demoService 0) (List.replicate 60 "x") 0)).length =
      1 + 1 ∧
    (callsOf (eventsOf strictEnv (demoService 0) (List.replicate 60 "x") 0)).length = 1 + 1 ∧
    (deliveries (eventsOf strictEnv (demoService 0) (List.replicate 60 "x") 0)).length = 1 ∧
    delivered (eventsOf strictEnv (demoService 0) (List.replicate 60 "x") 0) =
      deliveries (eventsOf strictEnv (demoService 0) (List.replicate 60 "x") 0) ∧
    (deliveries (eventsOf strictEnv (demoService 0) (List.replicate 60 "x") 0)).map
        (fun d => d.msg.Entities) =
      (chunks (List.replicate 60 "x")).take 1 :=
  publish_marshal_failure strictEnv (demoService 0) (List.replicate 60 "x") 0 1
    "unsupported value" (by rw [eventsOf_eq]; decide)

/-! ### The message body as a function of the slice -/

/-- The calls of the encoder and the bodies delivered by one call of `publishMessage`. -/
theorem publishMessage_bodies {σ ρ ε : Type} (L : Env ρ ε) (s : SNSMessageService σ ρ ε)
    (c : List String) (st : σ) :
    marshalResults (publishMessage L s c { conn := st, trace := [] }).2.trace =
      [({ Action := "touch", Entities := c }, L.Marshal { Action := "touch", Entities := c })] ∧
    (deliveries (publishMessage L s c { conn := st, trace := [] }).2.trace).map
        (fun d => d.input.Message) =
      match L.Marshal { Action := "touch", Entities := c } with
      | .ok b => [b]
      | .error _ => [] := by
  rw [publishMessage_eq]
  cases h : L.Marshal { Action := "touch", Entities := c } <;> simp [stepChunk, h]

/-- C12: the envelope `publishMessage` builds from a slice `c`, and the text it
delivers as message body, depend on `c` only: two calls on the same slice, with
any two services and any two client states, hand the same envelope to the
encoder and deliver the same body, which is the encoding of the envelope with
`Action` `"touch"` and `Entities` `c`. -/
theorem publishMessage_body_deterministic {σ₁ σ₂ ρ ε : Type} (L : Env ρ ε)
    (s₁ : SNSMessageService σ₁ ρ ε) (s₂ : SNSMessageService σ₂ ρ ε)
    (c : List String) (st₁ : σ₁) (st₂ : σ₂) :
    marshalResults (publishMessage L s₁ c { conn := st₁, trace := [] }).2.trace =
      marshalResults (publishMessage L s₂ c { conn := st₂, trace := [] }).2.trace ∧
    (deliveries (publishMessage L s₁ c { conn := st₁, trace := [] }).2.trace).map
        (fun d => d.input.Message) =
      (deliveries (publishMessage L s₂ c { conn := st₂, trace := [] }).2.trace).map
        (fun d => d.input.Message) ∧
    (∀ d ∈ deliveries (publishMessage L s₁ c { conn := st₁, trace := [] }).2.trace,
      d.msg = { Action := "touch", Entities := c } ∧
      L.Marshal { Action := "touch", Entities := c } = .ok d.input.Message) := by
  obtain ⟨a1, b1⟩ := publishMessage_bodies L s₁ c st₁
  obtain ⟨a2, b2⟩ := publishMessage_bodies L s₂ c st₂
  refine ⟨by rw [a1, a2], by rw [b1, b2], ?_⟩
  intro d hd
  rw [publishMessage_eq] at hd
  cases h : L.Marshal { Action := "touch", Entities := c } with
  | error e => simp [stepChunk, h] at hd
  | ok b =>
    simp only [stepChunk, h, List.nil_append, deliveries_cons_call, deliveries_cons_marshal,
      deliveries_cons_publish, deliveries_cons_log, deliveries_nil, List.mem_singleton] at hd
    subst hd
    exact ⟨rfl, rfl⟩

theorem publishMessage_body_deterministic_witness :
    (deliveries (publishMessage demoEnv (demoService 0) ["a", "a", ""]
        { conn := 0, trace := [] }).2.trace).map (fun d => d.input.Message) =
      (deliveries (publishMessage demoEnv (demoService 1) ["a", "a", ""]
        { conn := 7, trace := [] }).2.trace).map (fun d => d.input.Message) :=
  (publishMessage_body_deterministic demoEnv (demoService 0) (demoService 1)
    ["a", "a", ""] 0 7).2.1

/-! ### A run that fails against a run that does not -/

/-- The delivery calls of a run whose delivery of index `k` fails are the first
`k + 1` delivery calls of the run of the same service on a client that never
fails, and its deliveries with success are the first `k` of them. -/
theorem run_attempts_take {σ σ' ρ ε : Type} (L : Env ρ ε) (s : SNSMessageService σ ρ ε)
    (s' : SNSMessageService σ' ρ ε) (htopic : s'.topicArn = s.topicArn)
    (hconn : ∀ st input, (s'.conn.Publish st input).2.1 = none) (cs : List (List String)) :
    ∀ (st : σ) (st' : σ') (k : Nat) (e : ε),
      ((deliveries (runChunks L s cs st).2.2)[k]?).map (fun d => d.err) = some (some e) →
      (deliveries (runChunks L s cs st).2.2).map (fun d => (d.msg, d.input)) =
        ((deliveries (runChunks L s' cs st').2.2).map (fun d => (d.msg, d.input))).take (k + 1) ∧
      (delivered (runChunks L s cs st).2.2).map (fun d => (d.msg, d.input)) =
        ((deliveries (runChunks L s' cs st').2.2).map (fun d => (d.msg, d.input))).take k := by
  induction cs with
  | nil => intro st st' k e; simp [runChunks]
  | cons c cs ih =>
    intro st st' k e0
    rcases runChunks_cons L s c cs st with
      ⟨e, _, h⟩ | ⟨b, id, e, st1, hM, _, h⟩ | ⟨b, id, st1, hM, _, h⟩
    · rw [h]; simp
    · rcases runChunks_cons L s' c cs st' with
        ⟨e', hM', _⟩ | ⟨b', id', e', st1', _, hP', _⟩ | ⟨b', id', st1', hM', _, h'⟩
      · rw [hM] at hM'
        cases hM'
      · have := hconn st' ⟨b', s'.topicArn⟩
        rw [hP'] at this
        cases this
      · rw [hM] at hM'
        cases hM'
        rw [h, h', htopic]
        cases k with
        | zero => simp
        | succ k => simp
    · rcases runChunks_cons L s' c cs st' with
        ⟨e', hM', _⟩ | ⟨b', id', e', st1', _, hP', _⟩ | ⟨b', id', st1', hM', _, h'⟩
      · rw [hM] at hM'
        cases hM'
      · have := hconn st' ⟨b', s'.topicArn⟩
        rw [hP'] at this
        cases this
      · rw [hM] at hM'
        cases hM'
        rw [h, h', htopic]
        cases k with
        | zero => simp
        | succ k =>
          simp only [List.cons_append, List.nil_append, deliveries_cons_call,
            deliveries_cons_marshal, deliveries_cons_publish, deliveries_cons_log,
            List.getElem?_cons_succ, delivered_cons_call, delivered_cons_marshal,
            delivered_cons_publish_nil, delivered_cons_log, List.map_cons,
            List.take_succ_cons]
          intro hk
          obtain ⟨h1, h2⟩ := ih st1 st1' k e0 hk
          rw [h1, h2]
          exact ⟨rfl, rfl⟩

/-- C13: when delivery call number `k` (from 1) of a run of `Publish` fails,
the messages handed to the client in that run are exactly the first `k`
messages handed to a client that never fails, by the same service on the same
input; the `k - 1` messages delivered with success are the first `k - 1` of
them, each once and in order, and the run makes exactly `k` delivery calls. -/
theorem publish_partial_delivery {σ σ' ρ ε : Type} (L : Env ρ ε)
    (s : SNSMessageService σ ρ ε) (conn' : SNS σ' ρ ε) (subjects : List String)
    (st : σ) (st' : σ') (k : Nat) (e : ε) (hk : 1 ≤ k)
    (hfail : ((deliveries (eventsOf L s subjects st))[k - 1]?).map (fun d => d.err) =
      some (some e))
    (hok : ∀ st input, (conn'.Publish st input).2.1 = none) :
    (deliveries (eventsOf L s subjects st)).map (fun d => (d.msg, d.input)) =
      ((deliveries (eventsOf L (NewSNSMessageService conn' s.topicArn) subjects st')).map
        (fun d => (d.msg, d.input))).take k ∧
    (delivered (eventsOf L s subjects st)).map (fun d => (d.msg, d.input)) =
      ((deliveries (eventsOf L (NewSNSMessageService conn' s.topicArn) subjects st')).map
        (fun d => (d.msg, d.input))).take (k - 1) ∧
    (deliveries (eventsOf L s subjects st)).length = k := by
  rw [eventsOf_eq] at hfail ⊢
  rw [eventsOf_eq]
  obtain ⟨h1, h2⟩ := run_attempts_take L s (NewSNSMessageService conn' s.topicArn) rfl hok
    (chunks subjects) st st' (k - 1) e hfail
  have hk1 : k - 1 + 1 = k := by omega
  rw [hk1] at h1
  refine ⟨h1, h2, ?_⟩
  cases hd : (deliveries (runChunks L s (chunks subjects) st).2.2)[k - 1]? with
  | none => simp [hd] at hfail
  | some d =>
    have he : d.err = some e := by simpa [hd] using hfail
    have := (run_fail_at L s (chunks subjects) st (k - 1) d e hd he).2.1
    omega

theorem publish_partial_delivery_witness :
    (deliveries (eventsOf demoEnv (demoService 2) (List.replicate 120 "x") 0)).map
        (fun d => (d.msg, d.input)) =
      ((deliveries (eventsOf demoEnv (NewSNSMessageService (demoConn 0)
        (demoService 2).topicArn) (List.replicate 120 "x") 5)).map
          (fun d => (d.msg, d.input))).take 2 ∧
    (delivered (eventsOf demoEnv (demoService 2) (List.replicate 120 "x") 0)).map
        (fun d => (d.msg, d.input)) =
      ((deliveries (eventsOf demoEnv (NewSNSMessageService (demoConn 0)
        (demoService 2).topicArn) (List.replicate 120 "x") 5)).map
          (fun d => (d.msg, d.input))).take (2 - 1) ∧
    (deliveries (eventsOf demoEnv (demoService 2) (List.replicate 120 "x") 0)).length = 2 :=
  publish_partial_delivery demoEnv (demoService 2) (demoConn 0) (List.replicate 120 "x")
    0 5 2 "delivery failed" (by decide) (by rw [eventsOf_eq]; decide)
    (fun st input => by simp [demoConn])

/-! ### The slice bounds inside the loop -/

theorem loopEnd_bounds (subjects : List String) (i : Nat) (hi : i < subjects.length) :
    i < loopEnd subjects i ∧ loopEnd subjects i ≤ subjects.length ∧
    loopEnd subjects i - i ≤ 50 := by
  unfold loopEnd batchSize
  simp only
  split_ifs <;> omega

theorem slice_loopEnd (subjects : List String) (i : Nat) (hi : i < subjects.length) :
    slice subjects i (loopEnd subjects i) =
      some ((subjects.drop i).take (loopEnd subjects i - i)) := by
  obtain ⟨h1, h2, _⟩ := loopEnd_bounds subjects i hi
  unfold slice
  rw [if_pos ⟨by omega, h2⟩]

/-- One iteration of the loop: the slice expression does not panic, and the
loop goes on with the index moved by `batchSize` unless `publishMessage` fails. -/
theorem loop_step {σ ρ ε : Type} (L : Env ρ ε) (s : SNSMessageService σ ρ ε)
    (subjects : List String) (i : Nat) (w : World σ ρ ε) (hi : i < subjects.length) :
    Publish.loop L s subjects i w =
      match publishMessage L s ((subjects.drop i).take (loopEnd subjects i - i)) w with
      | (some err, w') => (Outcome.returned (some err), w')
      | (none, w') => Publish.loop L s subjects (i + batchSize) w' := by
  have hs := slice_loopEnd subjects i hi
  unfold loopEnd at hs
  simp only at hs
  rw [Publish.loop, if_pos hi]
  simp only [hs]
  rfl

theorem loop_ne_panicked {σ ρ ε : Type} (L : Env ρ ε) (s : SNSMessageService σ ρ ε)
    (subjects : List String) (d : Nat) :
    ∀ (i : Nat) (w : World σ ρ ε), subjects.length - i ≤ d →
      (Publish.loop L s subjects i w).1 ≠ Outcome.panicked := by
  induction d with
  | zero =>
    intro i w h
    rw [Publish.loop, if_neg (by omega)]
    simp
  | succ d ih =>
    intro i w h
    by_cases hi : i < subjects.length
    · rw [loop_step L s subjects i w hi]
      rcases hp : publishMessage L s
        ((subjects.drop i).take (loopEnd subjects i - i)) w with ⟨err, w'⟩
      cases err with
      | some e => simp
      | none =>
        simp only
        apply ih
        simp only [batchSize]
        omega
    · rw [Publish.loop, if_neg hi]
      simp

/-- C14: in the loop body entered with index `i` (so `i < len(subjects)`) the
bounds of the slice expression satisfy `0 <= i < end <= len(subjects)` and
`end - i <= 50`, the slice expression yields the elements from `i` up to `end`
and the iteration goes on without panic; from no index and in no world does
the loop, or `Publish`, end in the out-of-range panic. -/
theorem publish_slice_bounds {σ ρ ε : Type} (L : Env ρ ε) (s : SNSMessageService σ ρ ε)
    (subjects : List String) :
    (∀ i, i < subjects.length →
      0 ≤ i ∧ i < loopEnd subjects i ∧ loopEnd subjects i ≤ subjects.length ∧
      loopEnd subjects i - i ≤ 50 ∧
      slice subjects i (loopEnd subjects i) =
        some ((subjects.drop i).take (loopEnd subjects i - i))) ∧
    (∀ (i : Nat) (w : World σ ρ ε), i < subjects.length →
      Publish.loop L s subjects i w =
        match publishMessage L s ((subjects.drop i).take (loopEnd subjects i - i)) w with
        | (some err, w') => (Outcome.returned (some err), w')
        | (none, w') => Publish.loop L s subjects (i + batchSize) w') ∧
    (∀ (i : Nat) (w : World σ ρ ε), (Publish.loop L s subjects i w).1 ≠ Outcome.panicked) ∧
    (∀ w : World σ ρ ε, (Publish L s subjects w).1 ≠ Outcome.panicked) := by
  refine ⟨?_, ?_, ?_, ?_⟩
  · intro i hi
    obtain ⟨h1, h2, h3⟩ := loopEnd_bounds subjects i hi
    exact ⟨Nat.zero_le i, h1, h2, h3, slice_loopEnd subjects i hi⟩
  · intro i w hi
    exact loop_step L s subjects i w hi
  · intro i w
    exact loop_ne_panicked L s subjects _ i w le_rfl
  · intro w
    exact loop_ne_panicked L s subjects _ 0 w le_rfl

theorem publish_slice_bounds_witness :
    0 ≤ 100 ∧ 100 < loopEnd (List.replicate 120 "x") 100 ∧
    loopEnd (List.replicate 120 "x") 100 ≤ (List.replicate 120 "x").length ∧
    loopEnd (List.replicate 120 "x") 100 - 100 ≤ 50 ∧
    slice (List.replicate 120 "x") 100 (loopEnd (List.replicate 120 "x") 100) =
      some (((List.replicate 120 "x").drop 100).take
        (loopEnd (List.replicate 120 "x") 100 - 100)) :=
  (publish_slice_bounds demoEnv (demoService 0) (List.replicate 120 "x")).1 100 (by decide)

/-! ### Termination -/

/-- With more fuel than there are batches left from index `i`, the bounded loop
leaves the loop, with the result of `Publish.loop`. -/
theorem loopFuel_eq {σ ρ ε : Type} (L : Env ρ ε) (s : SNSMessageService σ ρ ε)
    (subjects : List String) (fuel : Nat) :
    ∀ (i : Nat) (w : World σ ρ ε), numChunks (subjects.length - i) < fuel →
      Publish.loopFuel L s subjects fuel i w = some (Publish.loop L s subjects i w) := by
  induction fuel with
  | zero => intro i w h; omega
  | succ fuel ih =>
    intro i w h
    by_cases hi : i < subjects.length
    · have hs := slice_loopEnd subjects i hi
      unfold loopEnd at hs
      simp only at hs
      rw [loop_step L s subjects i w hi, Publish.loopFuel, if_pos hi]
      simp only [hs]
      rcases hp : publishMessage L s
        ((subjects.drop i).take (loopEnd subjects i - i)) w with ⟨err, w'⟩
      have hp' := hp
      unfold loopEnd at hp'
      simp only at hp'
      rw [hp']
      cases err with
      | some e => rfl
      | none =>
        simp only
        apply ih
        have hle : numChunks (subjects.length - i) ≤ fuel := by omega
        rw [numChunks_le_iff] at hle
        have hgoal : numChunks (subjects.length - (i + batchSize)) ≤ fuel - 1 := by
          rw [numChunks_le_iff]
          simp only [batchSize] at hle ⊢
          omega
        have hpos : 0 < fuel := by
          rcases Nat.eq_zero_or_pos fuel with h0 | h0
          · subst h0
            simp only [batchSize] at hle
            omega
          · exact h0
        omega
    · rw [Publish.loopFuel, if_neg hi, Publish.loop, if_neg hi]

/-- The loop body of a run is entered at most once per batch of the partition. -/
theorem callsOf_length_le {σ ρ ε : Type} (L : Env ρ ε) (s : SNSMessageService σ ρ ε)
    (subjects : List String) (st : σ) :
    (callsOf (eventsOf L s subjects st)).length ≤ numChunks subjects.length := by
  rw [eventsOf_eq]
  have := congrArg List.length (run_take L s (chunks subjects) st).1
  rw [List.length_take, chunks_length] at this
  omega

/-- C15: `Publish` terminates, whatever the encoder and the SNS client do: the
loop starts at index 0 and, evaluated with a bound on the number of tests of the
loop condition, leaves the loop with the result of `Publish` as soon as the
bound exceeds `ceil (len(subjects) / 50)`; the body is entered at most
`ceil (len(subjects) / 50)` times; and each iteration moves the index by
`batchSize = 50 > 0`, which makes `len(subjects) - i` strictly smaller. -/
theorem publish_terminates {σ ρ ε : Type} (L : Env ρ ε) (s : SNSMessageService σ ρ ε)
    (subjects : List String) (w : World σ ρ ε) :
    (∀ fuel, ⌈(subjects.length : ℚ) / 50⌉₊ < fuel →
      Publish.loopFuel L s subjects fuel 0 w = some (Publish L s subjects w)) ∧
    (callsOf (eventsOf L s subjects w.conn)).length ≤ ⌈(subjects.length : ℚ) / 50⌉₊ ∧
    batchSize = 50 ∧
    (∀ i, i < subjects.length →
      subjects.length - (i + batchSize) < subjects.length - i) := by
  refine ⟨?_, ?_, rfl, ?_⟩
  · intro fuel hfuel
    rw [← numChunks_eq_ceil] at hfuel
    exact loopFuel_eq L s subjects fuel 0 w hfuel
  · rw [← numChunks_eq_ceil]
    exact callsOf_length_le L s subjects w.conn
  · intro i hi
    simp only [batchSize]
    omega

theorem publish_terminates_witness :
    Publish.loopFuel demoEnv (demoService 2) (List.replicate 120 "x") 4 0
        { conn := 0, trace := [] } =
      some (Publish demoEnv (demoService 2) (List.replicate 120 "x")
        { conn := 0, trace := [] }) :=
  (publish_terminates demoEnv (demoService 2) (List.replicate 120 "x")
    { conn := 0, trace := [] }).1 4 (by rw [← numChunks_eq_ceil]; decide)

/-! ### Batches of a concatenation -/

theorem numChunks_mul_add (m b : Nat) : numChunks (batchSize * m + b) = m + numChunks b := by
  unfold numChunks
  rw [Nat.add_assoc, Nat.mul_add_div (by decide)]

/-- After a whole number of batches the partition starts afresh. -/
theorem chunks_append {α : Type} (xs ys : List α) (h : batchSize ∣ xs.length) :
    chunks (xs ++ ys) = chunks xs ++ chunks ys := by
  obtain ⟨m, hm⟩ := h
  have hx : numChunks xs.length = m := by
    have := numChunks_mul_add m 0
    rw [Nat.add_zero] at this
    rw [hm, this]
    rfl
  unfold chunks
  rw [List.length_append, hm, numChunks_mul_add, ← hm, hx, List.range_add, List.map_append,
    List.map_map]
  congr 1
  · apply List.map_congr_left
    intro j hj
    rw [List.mem_range] at hj
    have hle : batchSize * j + batchSize ≤ xs.length := by
      rw [hm]
      have : batchSize * (j + 1) ≤ batchSize * m := Nat.mul_le_mul_left _ hj
      rw [Nat.mul_add, Nat.mul_one] at this
      exact this
    rw [chunkAt_eq_take, chunkAt_eq_take, List.drop_append_of_le_length (by omega),
      List.take_append_of_le_length (by rw [List.length_drop]; omega)]
  · apply List.map_congr_left
    intro t _
    simp only [Function.comp_apply]
    rw [chunkAt_eq_take, chunkAt_eq_take, Nat.mul_add, ← hm, List.drop_append]

/-- In a run without error `publishMessage` is called with the batches of the partition. -/
theorem callsOf_of_no_failure {σ ρ ε : Type} (L : Env ρ ε) (s : SNSMessageService σ ρ ε)
    (subjects : List String) (st : σ) (hf : failures (eventsOf L s subjects st) = []) :
    callsOf (eventsOf L s subjects st) = chunks subjects := by
  rw [eventsOf_eq] at hf ⊢
  have hnil : (runChunks L s (chunks subjects) st).1 = none := by
    rw [run_result, hf]
    rfl
  exact (run_ok L s (chunks subjects) st hnil).1

/-- C16: when the length of `xs` is a multiple of 50, the slices `Publish`
passes to `publishMessage` for `xs ++ ys` are those for `xs` followed by those
for `ys` (in runs without error); for `xs` of length 1 and `ys` of length 50
they are not. -/
theorem publish_chunks_compose {σ ρ ε : Type} (L : Env ρ ε) (s : SNSMessageService σ ρ ε) :
    (∀ (xs ys : List String) (st st₁ st₂ : σ), 50 ∣ xs.length →
      failures (eventsOf L s (xs ++ ys) st) = [] →
      failures (eventsOf L s xs st₁) = [] →
      failures (eventsOf L s ys st₂) = [] →
      callsOf (eventsOf L s (xs ++ ys) st) =
        callsOf (eventsOf L s xs st₁) ++ callsOf (eventsOf L s ys st₂)) ∧
    (failures (eventsOf demoEnv (demoService 0) (["a"] ++ List.replicate 50 "b") 0) = [] ∧
      failures (eventsOf demoEnv (demoService 0) ["a"] 0) = [] ∧
      failures (eventsOf demoEnv (demoService 0) (List.replicate 50 "b") 0) = [] ∧
      callsOf (eventsOf demoEnv (demoService 0) (["a"] ++ List.replicate 50 "b") 0) ≠
        callsOf (eventsOf demoEnv (demoService 0) ["a"] 0) ++
          callsOf (eventsOf demoEnv (demoService 0) (List.replicate 50 "b") 0)) := by
  constructor
  · intro xs ys st st₁ st₂ hdiv h1 h2 h3
    rw [callsOf_of_no_failure L s _ st h1, callsOf_of_no_failure L s _ st₁ h2,
      callsOf_of_no_failure L s _ st₂ h3]
    exact chunks_append xs ys hdiv
  · simp only [eventsOf_eq]
    decide

theorem publish_chunks_compose_witness :
    callsOf (eventsOf demoEnv (demoService 0)
        (List.replicate 50 "a" ++ List.replicate 3 "b") 0) =
      callsOf (eventsOf demoEnv (demoService 0) (List.replicate 50 "a") 4) ++
        callsOf (eventsOf demoEnv (demoService 0) (List.replicate 3 "b") 9) :=
  (publish_chunks_compose demoEnv (demoService 0)).1
    (List.replicate 50 "a") (List.replicate 3 "b") 0 4 9 (by decide)
    (by rw [eventsOf_eq]; decide) (by rw [eventsOf_eq]; decide) (by rw [eventsOf_eq]; decide)

end Messages
